import Mathlib

set_option linter.unusedVariables false

/-!
Shallow embedding of the encrypted credential store in `src/main.rs` of
the `example-password-manager-ratatui` repository: key derivation
(`initialize_cipher`), AEAD encryption/decryption of password fields
(`encrypt_password`, `decrypt_password`), the `nonce:ciphertext` base64
payload format (`decode_encrypted_components`, `is_encrypted_format`),
persistence with load-time migration (`load_entries`, `save_entries`)
and the entry-adding operation (`App::add_entry`).

Bytes are modelled as `Nat` values below 256 and byte strings as
`List Nat`.  The AEAD backend (`Aes256Gcm` of the external `aes_gcm`
crate) and the SHA-256 digest (external `sha2` crate) are not code of
this repository; they enter the embedding as abstract parameters and
their library contracts (round trip, tamper rejection, digest length)
appear as hypotheses of the theorems that need them.  Randomness (the
nonce drawn by `rand::thread_rng()`) is made explicit: functions that
draw a nonce take it as an argument, and `load_entries` takes a stream
of nonces indexed by the number of encryptions already performed.
File I/O is modelled by passing the file's lines (or `none` for a
missing file) in and returning the written content out.
-/

namespace PwVault

/-- Unicode white space: the set of characters Rust's
`char::is_whitespace` (used by `str::trim`) accepts. -/
def rustIsWhitespace (c : Char) : Bool :=
  let v := c.toNat
  (0x09 ≤ v && v ≤ 0x0D) || v == 0x20 || v == 0x85 || v == 0xA0 || v == 0x1680 ||
    (0x2000 ≤ v && v ≤ 0x200A) || v == 0x2028 || v == 0x2029 || v == 0x202F ||
    v == 0x205F || v == 0x3000

/-- Rust `str::trim`: remove leading and trailing white space. -/
def rustTrim (s : String) : String :=
  ⟨((s.data.dropWhile rustIsWhitespace).reverse.dropWhile rustIsWhitespace).reverse⟩

/-- Rust `str::split_once` on a list of characters: split at the first
occurrence of `sep`, returning the parts before and after it. -/
def splitOnceList (sep : Char) : List Char → Option (List Char × List Char)
  | [] => none
  | c :: rest =>
    if c = sep then some ([], rest)
    else (splitOnceList sep rest).map (fun p => (c :: p.1, p.2))

/-- Rust `str::split_once`. -/
def splitOnce (sep : Char) (s : String) : Option (String × String) :=
  (splitOnceList sep s.data).map (fun p => (⟨p.1⟩, ⟨p.2⟩))

/-! ### UTF-8 (Rust `str::as_bytes` and `String::from_utf8`) -/

/-- The UTF-8 encoding of one character (1–4 bytes). -/
def utf8EncodeChar (c : Char) : List Nat :=
  let v := c.toNat
  if v < 0x80 then [v]
  else if v < 0x800 then [0xC0 + v / 64, 0x80 + v % 64]
  else if v < 0x10000 then [0xE0 + v / 4096, 0x80 + v / 64 % 64, 0x80 + v % 64]
  else [0xF0 + v / 262144, 0x80 + v / 4096 % 64, 0x80 + v / 64 % 64, 0x80 + v % 64]

/-- Rust `str::as_bytes`: the UTF-8 bytes of a string. -/
def utf8Encode (s : String) : List Nat := s.data.flatMap utf8EncodeChar

/-- Is `b` a UTF-8 continuation byte? -/
def utf8Cont (b : Nat) : Bool := 0x80 ≤ b && b < 0xC0

/-- Decode one UTF-8 character from the front of a byte list, rejecting
truncated sequences, stray continuation bytes, overlong forms,
surrogates and values beyond U+10FFFF. -/
def utf8DecodeChar : List Nat → Option (Char × List Nat)
  | [] => none
  | b0 :: rest =>
    if b0 < 0x80 then some (Char.ofNat b0, rest)
    else if b0 < 0xC2 then none
    else if b0 < 0xE0 then
      match rest with
      | b1 :: rest1 =>
        if utf8Cont b1 then some (Char.ofNat ((b0 - 0xC0) * 64 + (b1 - 0x80)), rest1)
        else none
      | [] => none
    else if b0 < 0xF0 then
      match rest with
      | b1 :: b2 :: rest2 =>
        if utf8Cont b1 && utf8Cont b2 then
          let v := (b0 - 0xE0) * 4096 + (b1 - 0x80) * 64 + (b2 - 0x80)
          if 0x800 ≤ v && !(0xD800 ≤ v && v < 0xE000) then some (Char.ofNat v, rest2)
          else none
        else none
      | _ => none
    else if b0 < 0xF5 then
      match rest with
      | b1 :: b2 :: b3 :: rest3 =>
        if utf8Cont b1 && utf8Cont b2 && utf8Cont b3 then
          let v := (b0 - 0xF0) * 262144 + (b1 - 0x80) * 4096 + (b2 - 0x80) * 64 + (b3 - 0x80)
          if 0x10000 ≤ v && v < 0x110000 then some (Char.ofNat v, rest3)
          else none
        else none
      | _ => none
    else none

/-- Fuel-indexed UTF-8 decoding loop; the fuel only needs to be at least
the number of bytes. -/
def utf8DecodeAux : Nat → List Nat → Option (List Char)
  | _, [] => some []
  | 0, _ :: _ => none
  | fuel + 1, b :: bs =>
    match utf8DecodeChar (b :: bs) with
    | none => none
    | some (c, rest) => (utf8DecodeAux fuel rest).map (c :: ·)

/-- Rust `String::from_utf8`: decode a byte list as UTF-8 text. -/
def utf8Decode (bs : List Nat) : Option String :=
  (utf8DecodeAux bs.length bs).map String.mk

/-! ### Base64 (`base64::engine::general_purpose::STANDARD`) -/

/-- The 64 characters of the standard base64 alphabet. -/
def b64Alphabet : List Char :=
  "ABCDEFGHIJKLMNOPQRSTUVWXYZabcdefghijklmnopqrstuvwxyz0123456789+/".data

/-- The alphabet character of a sextet. -/
def b64Char (i : Nat) : Char := b64Alphabet.getD i 'A'

/-- The sextet a character stands for, if it is in the alphabet. -/
def b64invChar (c : Char) : Option Nat := b64Alphabet.findIdx? (· == c)

/-- Base64 encoding of a byte list, three bytes to four characters, with
`=` padding for a short final group. -/
def b64chunks : List Nat → List Char
  | b0 :: b1 :: b2 :: rest =>
    b64Char (b0 / 4) :: b64Char (b0 % 4 * 16 + b1 / 16) ::
      b64Char (b1 % 16 * 4 + b2 / 64) :: b64Char (b2 % 64) :: b64chunks rest
  | [b0, b1] => [b64Char (b0 / 4), b64Char (b0 % 4 * 16 + b1 / 16), b64Char (b1 % 16 * 4), '=']
  | [b0] => [b64Char (b0 / 4), b64Char (b0 % 4 * 16), '=', '=']
  | [] => []

/-- `STANDARD.encode`. -/
def b64encode (bs : List Nat) : String := ⟨b64chunks bs⟩

/-- `STANDARD.decode` on characters: strict/canonical decoding — the
length must be a multiple of four, `=` may appear only as canonical
padding of the final group, and the unused trailing bits of a padded
group must be zero. -/
def b64decodeList : List Char → Option (List Nat)
  | [] => some []
  | c0 :: c1 :: c2 :: c3 :: rest =>
    match b64invChar c0, b64invChar c1 with
    | some s0, some s1 =>
      if c2 = '=' then
        if c3 = '=' && rest.isEmpty then
          if s1 % 16 = 0 then some [s0 * 4 + s1 / 16] else none
        else none
      else
        match b64invChar c2 with
        | some s2 =>
          if c3 = '=' then
            if rest.isEmpty then
              if s2 % 4 = 0 then some [s0 * 4 + s1 / 16, s1 % 16 * 16 + s2 / 4] else none
            else none
          else
            match b64invChar c3 with
            | some s3 =>
              (b64decodeList rest).map
                (fun bs => (s0 * 4 + s1 / 16) :: (s1 % 16 * 16 + s2 / 4) :: (s2 % 4 * 64 + s3) :: bs)
            | none => none
        | none => none
    | _, _ => none
  | _ => none

/-- `STANDARD.decode`. -/
def b64decode (s : String) : Option (List Nat) := b64decodeList s.data

/-! ### The cipher and the core operations of `src/main.rs` -/

/-- An `Aes256Gcm` instance of the external `aes_gcm` crate, modelled
abstractly by its two AEAD operations on byte strings: `aeadEnc nonce
plaintext` and `aeadDec nonce ciphertext` (the ciphertext carries the
16-byte authentication tag; `none` is the crate's `aead::Error`).  The
crate's cryptographic contracts are stated as hypotheses where a
theorem needs them. -/
structure Cipher where
  aeadEnc : List Nat → List Nat → Option (List Nat)
  aeadDec : List Nat → List Nat → Option (List Nat)

/-- The `Entry` struct: one stored credential. -/
structure Entry where
  account : String
  password : String
deriving DecidableEq, Repr

/-- `Aes256Gcm::new_from_slice` (external `aes_gcm` crate): builds a
cipher from a key slice, failing unless the slice is exactly 32 bytes.
`mk` stands for the crate's key-to-instance constructor. -/
def new_from_slice (mk : List Nat → Cipher) (key : List Nat) : Option Cipher :=
  if key.length = 32 then some (mk key) else none

/-- `initialize_cipher` from src/main.rs.  `sha256` stands for the
external `sha2` crate's `Sha256::digest` and `mk` for the `aes_gcm`
constructor; `envVar` is the value of `PASSWORD_MANAGER_KEY` (`none`
when the variable is unset). -/
def initialize_cipher (sha256 : List Nat → List Nat) (mk : List Nat → Cipher)
    (envVar : Option String) : Except String Cipher :=
  match envVar with
  | none => .error "Environment variable PASSWORD_MANAGER_KEY belum diset."
  | some passphrase =>
    if (rustTrim passphrase).isEmpty then
      .error "PASSWORD_MANAGER_KEY tidak boleh kosong."
    else
      match new_from_slice mk (sha256 (utf8Encode passphrase)) with
      | some cipher => .ok cipher
      | none => .error "Gagal menginisialisasi cipher."

/-- `encrypt_password` from src/main.rs.  The Rust function draws the
12 nonce bytes from `rand::thread_rng()`; the embedding takes the drawn
nonce as the explicit argument `nonce_bytes`. -/
def encrypt_password (cipher : Cipher) (nonce_bytes : List Nat) (plaintext : String) :
    Except String String :=
  match cipher.aeadEnc nonce_bytes (utf8Encode plaintext) with
  | none => .error "Gagal mengenkripsi password"
  | some ciphertext => .ok (b64encode nonce_bytes ++ ":" ++ b64encode ciphertext)

/-- `decode_encrypted_components` from src/main.rs. -/
def decode_encrypted_components (value : String) : Except String (List Nat × List Nat) :=
  match splitOnce ':' value with
  | none => .error "Format data enkripsi tidak valid."
  | some (nonce_b64, cipher_b64) =>
    match b64decode nonce_b64 with
    | none => .error "Nonce terenkripsi tidak valid."
    | some nonce_bytes =>
      if nonce_bytes.length ≠ 12 then .error "Panjang nonce tidak valid."
      else
        match b64decode cipher_b64 with
        | none => .error "Ciphertext terenkripsi tidak valid."
        | some cipher_bytes => .ok (nonce_bytes, cipher_bytes)

/-- `decrypt_password` from src/main.rs.  The `try_into` of the nonce
vector into a `[u8; 12]` array succeeds exactly when the vector has
length 12. -/
def decrypt_password (cipher : Cipher) (value : String) : Except String String :=
  match decode_encrypted_components value with
  | .error e => .error e
  | .ok (nonce_bytes, cipher_bytes) =>
    if nonce_bytes.length = 12 then
      match cipher.aeadDec nonce_bytes cipher_bytes with
      | none => .error "Gagal mendekripsi password."
      | some plaintext =>
        match utf8Decode plaintext with
        | none => .error "Password terdekripsi bukan UTF-8 valid."
        | some s => .ok s
    else .error "Nonce terenkripsi tidak valid."

/-- `is_encrypted_format` from src/main.rs. -/
def is_encrypted_format (value : String) : Bool :=
  value.data.contains ':' &&
    match splitOnce ':' value with
    | some (n, c) => !n.isEmpty && !c.isEmpty
    | none => false

/-! ### Store: load with migration, save -/

/-- The loop body of `load_entries`: process the file's lines in order.
`k` counts the encryptions performed so far (it indexes the nonce
stream `nonceAt`), `updated` is the migration flag accumulated so far.
A line is split at its first comma by `splitn(2, ',')`; a line with no
comma yields one part and is skipped. -/
def processLines (cipher : Cipher) (nonceAt : Nat → List Nat) :
    List String → Nat → Bool → Except String (List Entry × Bool)
  | [], _, updated => .ok ([], updated)
  | line :: rest, k, updated =>
    match splitOnce ',' line with
    | none => processLines cipher nonceAt rest k updated
    | some (account, raw_password) =>
      if is_encrypted_format raw_password then
        (processLines cipher nonceAt rest k updated).map
          (fun p => ({ account := account, password := raw_password } :: p.1, p.2))
      else
        match encrypt_password cipher (nonceAt k) raw_password with
        | .error e => .error e
        | .ok enc =>
          (processLines cipher nonceAt rest (k + 1) true).map
            (fun p => ({ account := account, password := enc } :: p.1, p.2))

/-- `load_entries` from src/main.rs.  The backing file appears as its
list of lines (`none` when the file does not exist, in which case the
result is an empty list with `migrated = false`); an encryption failure
during migration is the `io::Error` the Rust code wraps it in. -/
def load_entries (file : Option (List String)) (cipher : Cipher) (nonceAt : Nat → List Nat) :
    Except String (List Entry × Bool) :=
  match file with
  | none => .ok ([], false)
  | some fileLines => processLines cipher nonceAt fileLines 0 false

/-- `save_entries` from src/main.rs: the file is opened with
`truncate(true)`, so the written content replaces `oldContent` wholly;
the loop emits one `writeln!`-terminated `account,password` line per
entry.  The result is the file's new content. -/
def save_entries (oldContent : String) : List Entry → String
  | [] => ""
  | e :: rest => e.account ++ "," ++ e.password ++ "\n" ++ save_entries oldContent rest

/-- Strip one trailing carriage return, as `BufRead::lines` does to each
line. -/
def stripCR (l : List Char) : List Char :=
  if l.getLast? = some '\r' then l.dropLast else l

/-- Worker for `splitLinesList`: `cur` is the current line read so far,
in reverse. -/
def splitLinesAux : List Char → List Char → List (List Char)
  | cur, [] => if cur.isEmpty then [] else [stripCR cur.reverse]
  | cur, c :: cs =>
    if c = '\n' then stripCR cur.reverse :: splitLinesAux [] cs
    else splitLinesAux (c :: cur) cs

/-- `BufRead::lines` on the characters of the file content: split on
newline characters, stripping one trailing carriage return per line;
content ending in a newline yields no empty final line. -/
def splitLinesList (cs : List Char) : List (List Char) :=
  splitLinesAux [] cs

/-- `BufRead::lines` of `load_entries`, as a function from the file's
content to its list of lines. -/
def linesOf (s : String) : List String := (splitLinesList s.data).map String.mk

/-! ### The `App` operation `add_entry` -/

/-- The `App` struct, restricted to the fields `App::add_entry` reads or
writes (the rendering-only fields — list state, input mode, selection,
feedback — are omitted). -/
structure App where
  entries : List Entry
  account_input : String
  password_input : String
  cipher : Cipher

/-- `App::add_entry` from src/main.rs.  Returns the Rust method's
`Result<(), String>` together with the updated `self` (Rust mutates
through `&mut self`); the fresh nonce drawn by the inner
`encrypt_password` call is the explicit argument `nonce`. -/
def App.add_entry (nonce : List Nat) (app : App) : Except String Unit × App :=
  let account := rustTrim app.account_input
  let password := rustTrim app.password_input
  if account.isEmpty || password.isEmpty then
    (.error "Account atau password tidak boleh kosong.", app)
  else
    match encrypt_password app.cipher nonce password with
    | .error e => (.error e, app)
    | .ok encrypted =>
      (.ok (), { app with
                  entries := app.entries ++ [{ account := account, password := encrypted }],
                  account_input := "", password_input := "" })

/-! ### A concrete cipher for witnesses -/

/-- Flip bit `j` of byte `i` of a byte string (used to state tamper
detection). -/
def flipBit (bs : List Nat) (i j : Nat) : List Nat :=
  bs.set i (bs.getD i 0 ^^^ 2 ^ j)

/-- The entry `load_entries` builds for a line that needs migration,
given the nonce its encryption draws.  The fallback branches are never
reached under the hypotheses of the migration theorem. -/
def mkMigrated (cipher : Cipher) (nonce : List Nat) (l : String) : Entry :=
  match splitOnce ',' l with
  | some (a, r) =>
    match encrypt_password cipher nonce r with
    | .ok enc => { account := a, password := enc }
    | .error _ => { account := a, password := r }
  | none => { account := "", password := "" }

/-- The checksum tag of the degenerate witness cipher. -/
def toyTag (nonce pt : List Nat) : List Nat :=
  (pt.sum + nonce.sum) % 256 :: List.replicate 15 0

/-- A degenerate AEAD used only to instantiate theorems at concrete
inputs: the ciphertext is the plaintext followed by a 16-byte checksum
tag, and decryption recomputes and compares the tag. -/
def toyCipher : Cipher where
  aeadEnc nonce pt := some (pt ++ toyTag nonce pt)
  aeadDec nonce ct :=
    if 16 ≤ ct.length then
      let body := ct.take (ct.length - 16)
      if ct.drop (ct.length - 16) = toyTag nonce body then some body else none
    else none

/-! ## Lemmas about `splitOnceList` and strings -/

theorem splitOnceList_append {sep : Char} {a : List Char} (h : sep ∉ a) (b : List Char) :
    splitOnceList sep (a ++ sep :: b) = some (a, b) := by
  induction a with
  | nil => simp [splitOnceList]
  | cons c rest ih =>
    have hc : ¬(c = sep) := fun hh => h (hh ▸ List.mem_cons_self c rest)
    have hrest : sep ∉ rest := fun hh => h (List.mem_cons_of_mem c hh)
    simp only [List.cons_append, splitOnceList, if_neg hc]
    rw [show splitOnceList sep (rest.append (sep :: b)) = some (rest, b) from ih hrest]
    rfl

theorem splitOnceList_sound {sep : Char} {l a b : List Char}
    (h : splitOnceList sep l = some (a, b)) : l = a ++ sep :: b ∧ sep ∉ a := by
  induction l generalizing a b with
  | nil => simp [splitOnceList] at h
  | cons c rest ih =>
    unfold splitOnceList at h
    split at h
    case isTrue hc =>
      simp only [Option.some.injEq, Prod.mk.injEq] at h
      obtain ⟨ha, hb⟩ := h
      subst ha
      subst hb
      subst hc
      exact ⟨rfl, List.not_mem_nil _⟩
    case isFalse hc =>
      rw [Option.map_eq_some'] at h
      obtain ⟨⟨a1, b1⟩, hsp, heq⟩ := h
      simp only [Prod.mk.injEq] at heq
      obtain ⟨ha, hb⟩ := heq
      subst ha
      subst hb
      obtain ⟨ih1, ih2⟩ := ih hsp
      refine ⟨by rw [ih1]; rfl, ?_⟩
      intro hmem
      rcases List.mem_cons.mp hmem with hh | hh
      · exact hc hh.symm
      · exact ih2 hh

theorem splitOnceList_eq_none {sep : Char} {l : List Char} :
    splitOnceList sep l = none ↔ sep ∉ l := by
  induction l with
  | nil => simp [splitOnceList]
  | cons c rest ih =>
    unfold splitOnceList
    by_cases hc : c = sep
    · subst hc
      simp
    · simp only [if_neg hc, Option.map_eq_none', ih, List.mem_cons]
      constructor
      · intro h hmem
        rcases hmem with hh | hh
        · exact hc hh.symm
        · exact h hh
      · intro h hmem
        exact h (Or.inr hmem)

theorem string_mk_eq_empty_iff {l : List Char} : String.mk l = "" ↔ l = [] := by
  constructor
  · intro h
    have : (String.mk l).data = ("" : String).data := by rw [h]
    simpa using this
  · intro h
    rw [h]

theorem contains_iff_mem {l : List Char} {c : Char} : l.contains c = true ↔ c ∈ l := by
  simp [List.contains]

/-! ## Lemmas about base64 -/

theorem b64invChar_b64Char : ∀ i, i < 64 → b64invChar (b64Char i) = some i := by decide

theorem b64Char_mem (i : Nat) : b64Char i ∈ b64Alphabet := by
  unfold b64Char
  rw [List.getD_eq_getElem?_getD]
  rcases h : b64Alphabet[i]? with _ | c
  · simp only [Option.getD_none]
    decide
  · simpa using List.getElem?_mem h

theorem b64Char_ne_pad (i : Nat) : b64Char i ≠ '=' := by
  intro h
  exact absurd (h ▸ b64Char_mem i) (by decide)

theorem mem_b64chunks {ch : Char} {bs : List Nat} (h : ch ∈ b64chunks bs) :
    ch ∈ b64Alphabet ∨ ch = '=' := by
  induction bs using b64chunks.induct with
  | case1 b0 b1 b2 rest ih =>
    simp only [b64chunks, List.mem_cons] at h
    rcases h with h | h | h | h | h
    · exact Or.inl (h ▸ b64Char_mem _)
    · exact Or.inl (h ▸ b64Char_mem _)
    · exact Or.inl (h ▸ b64Char_mem _)
    · exact Or.inl (h ▸ b64Char_mem _)
    · exact ih h
  | case2 b0 b1 =>
    simp only [b64chunks, List.mem_cons, List.not_mem_nil, or_false] at h
    rcases h with h | h | h | h
    · exact Or.inl (h ▸ b64Char_mem _)
    · exact Or.inl (h ▸ b64Char_mem _)
    · exact Or.inl (h ▸ b64Char_mem _)
    · exact Or.inr h
  | case3 b0 =>
    simp only [b64chunks, List.mem_cons, List.not_mem_nil, or_false] at h
    rcases h with h | h | h | h
    · exact Or.inl (h ▸ b64Char_mem _)
    · exact Or.inl (h ▸ b64Char_mem _)
    · exact Or.inr h
    · exact Or.inr h
  | case4 => simp [b64chunks] at h

theorem b64chunks_no_colon {bs : List Nat} : ':' ∉ b64chunks bs := by
  intro h
  rcases mem_b64chunks h with h' | h'
  · exact absurd h' (by decide)
  · exact absurd h' (by decide)

theorem b64chunks_no_comma {bs : List Nat} : ',' ∉ b64chunks bs := by
  intro h
  rcases mem_b64chunks h with h' | h'
  · exact absurd h' (by decide)
  · exact absurd h' (by decide)

theorem b64chunks_no_newline {bs : List Nat} : '\n' ∉ b64chunks bs := by
  intro h
  rcases mem_b64chunks h with h' | h'
  · exact absurd h' (by decide)
  · exact absurd h' (by decide)

theorem b64chunks_no_cr {bs : List Nat} : '\r' ∉ b64chunks bs := by
  intro h
  rcases mem_b64chunks h with h' | h'
  · exact absurd h' (by decide)
  · exact absurd h' (by decide)

theorem b64chunks_ne_nil {bs : List Nat} (h : bs ≠ []) : b64chunks bs ≠ [] := by
  induction bs using b64chunks.induct with
  | case1 b0 b1 b2 rest ih => simp [b64chunks]
  | case2 b0 b1 => simp [b64chunks]
  | case3 b0 => simp [b64chunks]
  | case4 => exact absurd rfl h

theorem b64decodeList_b64chunks {bs : List Nat} (h : ∀ b ∈ bs, b < 256) :
    b64decodeList (b64chunks bs) = some bs := by
  induction bs using b64chunks.induct with
  | case1 b0 b1 b2 rest ih =>
    have h0 : b0 < 256 := h b0 (by simp)
    have h1 : b1 < 256 := h b1 (by simp)
    have h2 : b2 < 256 := h b2 (by simp)
    have hrest : ∀ b ∈ rest, b < 256 := fun b hb => h b (by simp [hb])
    simp only [b64chunks, b64decodeList]
    rw [b64invChar_b64Char _ (by omega), b64invChar_b64Char _ (by omega)]
    simp only
    rw [if_neg (b64Char_ne_pad _)]
    rw [b64invChar_b64Char _ (by omega)]
    simp only
    rw [if_neg (b64Char_ne_pad _)]
    rw [b64invChar_b64Char _ (by omega)]
    simp only
    rw [ih hrest]
    simp only [Option.map_some']
    have e1 : b0 / 4 * 4 + (b0 % 4 * 16 + b1 / 16) / 16 = b0 := by omega
    have e2 : (b0 % 4 * 16 + b1 / 16) % 16 * 16 + (b1 % 16 * 4 + b2 / 64) / 4 = b1 := by omega
    have e3 : (b1 % 16 * 4 + b2 / 64) % 4 * 64 + b2 % 64 = b2 := by omega
    rw [e1, e2, e3]
  | case2 b0 b1 =>
    have h0 : b0 < 256 := h b0 (by simp)
    have h1 : b1 < 256 := h b1 (by simp)
    simp only [b64chunks, b64decodeList]
    rw [b64invChar_b64Char _ (by omega), b64invChar_b64Char _ (by omega)]
    simp only
    rw [if_neg (b64Char_ne_pad _)]
    rw [b64invChar_b64Char _ (by omega)]
    simp only
    rw [if_pos trivial, if_pos (show ([] : List Char).isEmpty = true from rfl),
      if_pos (show b1 % 16 * 4 % 4 = 0 by omega)]
    have e1 : b0 / 4 * 4 + (b0 % 4 * 16 + b1 / 16) / 16 = b0 := by omega
    have e2 : (b0 % 4 * 16 + b1 / 16) % 16 * 16 + b1 % 16 * 4 / 4 = b1 := by omega
    rw [e1, e2]
  | case3 b0 =>
    have h0 : b0 < 256 := h b0 (by simp)
    simp only [b64chunks, b64decodeList]
    rw [b64invChar_b64Char _ (by omega), b64invChar_b64Char _ (by omega)]
    simp only
    rw [if_pos trivial, if_pos (show (decide True && ([] : List Char).isEmpty) = true by decide),
      if_pos (show b0 % 4 * 16 % 16 = 0 by omega)]
    have e1 : b0 / 4 * 4 + b0 % 4 * 16 / 16 = b0 := by omega
    rw [e1]
  | case4 => rfl

/-! ## Lemmas about UTF-8 -/

theorem utf8EncodeChar_length_pos (c : Char) : 1 ≤ (utf8EncodeChar c).length := by
  simp only [utf8EncodeChar]
  split
  · simp
  · split
    · simp
    · split
      · simp
      · simp

theorem utf8EncodeChar_lt_256 (c : Char) : ∀ b ∈ utf8EncodeChar c, b < 256 := by
  have hv : c.toNat < 0xD800 ∨ (0xDFFF < c.toNat ∧ c.toNat < 0x110000) := c.valid
  have hlt : c.toNat < 0x110000 := by rcases hv with h | ⟨_, h⟩ <;> omega
  intro b hb
  simp only [utf8EncodeChar] at hb
  split at hb
  · simp at hb
    omega
  · split at hb
    · simp at hb
      rcases hb with hb | hb <;> omega
    · split at hb
      · simp at hb
        rcases hb with hb | hb | hb <;> omega
      · simp at hb
        rcases hb with hb | hb | hb | hb <;> omega

theorem utf8Encode_lt_256 (s : String) : ∀ b ∈ utf8Encode s, b < 256 := by
  intro b hb
  unfold utf8Encode at hb
  rw [List.mem_flatMap] at hb
  obtain ⟨c, _, hbc⟩ := hb
  exact utf8EncodeChar_lt_256 c b hbc

theorem utf8DecodeChar_encodeChar (c : Char) (rest : List Nat) :
    utf8DecodeChar (utf8EncodeChar c ++ rest) = some (c, rest) := by
  have hv : c.toNat < 0xD800 ∨ (0xDFFF < c.toNat ∧ c.toNat < 0x110000) := c.valid
  have hlt : c.toNat < 0x110000 := by rcases hv with h | ⟨_, h⟩ <;> omega
  have hns : c.toNat < 0xD800 ∨ 0xE000 ≤ c.toNat := by
    rcases hv with h | ⟨h, _⟩
    · exact Or.inl h
    · exact Or.inr (by omega)
  by_cases h1 : c.toNat < 0x80
  · simp only [utf8EncodeChar, if_pos h1, List.singleton_append]
    simp only [utf8DecodeChar, if_pos h1, Char.ofNat_toNat]
  · by_cases h2 : c.toNat < 0x800
    · simp only [utf8EncodeChar, if_neg h1, if_pos h2, List.cons_append, List.singleton_append]
      have e1 : ¬(0xC0 + c.toNat / 64 < 0x80) := by omega
      have e2 : ¬(0xC0 + c.toNat / 64 < 0xC2) := by omega
      have e3 : 0xC0 + c.toNat / 64 < 0xE0 := by omega
      have e4 : utf8Cont (0x80 + c.toNat % 64) = true := by
        simp only [utf8Cont, Bool.and_eq_true, decide_eq_true_eq]
        omega
      simp only [utf8DecodeChar, if_neg e1, if_neg e2, if_pos e3, e4, if_true, List.nil_append]
      have ev : (0xC0 + c.toNat / 64 - 0xC0) * 64 + (0x80 + c.toNat % 64 - 0x80) = c.toNat := by
        omega
      rw [ev, Char.ofNat_toNat]
    · by_cases h3 : c.toNat < 0x10000
      · simp only [utf8EncodeChar, if_neg h1, if_neg h2, if_pos h3, List.cons_append,
          List.singleton_append]
        have e1 : ¬(0xE0 + c.toNat / 4096 < 0x80) := by omega
        have e2 : ¬(0xE0 + c.toNat / 4096 < 0xC2) := by omega
        have e3 : ¬(0xE0 + c.toNat / 4096 < 0xE0) := by omega
        have e4 : 0xE0 + c.toNat / 4096 < 0xF0 := by omega
        have e5 : utf8Cont (0x80 + c.toNat / 64 % 64) = true := by
          simp only [utf8Cont, Bool.and_eq_true, decide_eq_true_eq]
          omega
        have e6 : utf8Cont (0x80 + c.toNat % 64) = true := by
          simp only [utf8Cont, Bool.and_eq_true, decide_eq_true_eq]
          omega
        simp only [utf8DecodeChar, if_neg e1, if_neg e2, if_neg e3, if_pos e4, e5, e6]
        have ev : (0xE0 + c.toNat / 4096 - 0xE0) * 4096 + (0x80 + c.toNat / 64 % 64 - 0x80) * 64 +
            (0x80 + c.toNat % 64 - 0x80) = c.toNat := by omega
        rw [ev]
        have econd : (decide (0x800 ≤ c.toNat) &&
            !(decide (0xD800 ≤ c.toNat) && decide (c.toNat < 0xE000))) = true := by
          have d1 : decide (0x800 ≤ c.toNat) = true := by
            simp only [decide_eq_true_eq]
            omega
          rcases hns with h | h
          · have d2 : decide (0xD800 ≤ c.toNat) = false := by
              simp only [decide_eq_false_iff_not]
              omega
            rw [d1, d2]
            rfl
          · have d3 : decide (c.toNat < 0xE000) = false := by
              simp only [decide_eq_false_iff_not]
              omega
            rw [d1, d3]
            simp
        rw [econd, if_pos rfl, Char.ofNat_toNat]
        simp
      · simp only [utf8EncodeChar, if_neg h1, if_neg h2, if_neg h3, List.cons_append,
          List.singleton_append]
        have e1 : ¬(0xF0 + c.toNat / 262144 < 0x80) := by omega
        have e2 : ¬(0xF0 + c.toNat / 262144 < 0xC2) := by omega
        have e3 : ¬(0xF0 + c.toNat / 262144 < 0xE0) := by omega
        have e4 : ¬(0xF0 + c.toNat / 262144 < 0xF0) := by omega
        have e5 : 0xF0 + c.toNat / 262144 < 0xF5 := by omega
        have e6 : utf8Cont (0x80 + c.toNat / 4096 % 64) = true := by
          simp only [utf8Cont, Bool.and_eq_true, decide_eq_true_eq]
          omega
        have e7 : utf8Cont (0x80 + c.toNat / 64 % 64) = true := by
          simp only [utf8Cont, Bool.and_eq_true, decide_eq_true_eq]
          omega
        have e8 : utf8Cont (0x80 + c.toNat % 64) = true := by
          simp only [utf8Cont, Bool.and_eq_true, decide_eq_true_eq]
          omega
        simp only [utf8DecodeChar, if_neg e1, if_neg e2, if_neg e3, if_neg e4, if_pos e5,
          e6, e7, e8]
        have ev : (0xF0 + c.toNat / 262144 - 0xF0) * 262144 +
            (0x80 + c.toNat / 4096 % 64 - 0x80) * 4096 +
            (0x80 + c.toNat / 64 % 64 - 0x80) * 64 + (0x80 + c.toNat % 64 - 0x80) = c.toNat := by
          omega
        rw [ev]
        have econd : (decide (0x10000 ≤ c.toNat) && decide (c.toNat < 0x110000)) = true := by
          simp only [Bool.and_eq_true, decide_eq_true_eq]
          omega
        rw [econd, if_pos rfl, Char.ofNat_toNat]
        simp

theorem utf8DecodeAux_encode : ∀ (cs : List Char) (fuel : Nat),
    (cs.flatMap utf8EncodeChar).length ≤ fuel →
    utf8DecodeAux fuel (cs.flatMap utf8EncodeChar) = some cs := by
  intro cs
  induction cs with
  | nil =>
    intro fuel _
    simp [utf8DecodeAux]
  | cons c cs ih =>
    intro fuel h
    rw [List.flatMap_cons] at h ⊢
    have hlen := utf8EncodeChar_length_pos c
    cases fuel with
    | zero =>
      exfalso
      rw [List.length_append] at h
      omega
    | succ f =>
      obtain ⟨b, bs, hebs⟩ : ∃ b bs, utf8EncodeChar c = b :: bs := by
        cases hh : utf8EncodeChar c with
        | nil =>
          rw [hh] at hlen
          simp at hlen
        | cons b bs => exact ⟨b, bs, rfl⟩
      rw [hebs, List.cons_append]
      simp only [utf8DecodeAux]
      rw [← List.cons_append, ← hebs, utf8DecodeChar_encodeChar]
      have hle : (cs.flatMap utf8EncodeChar).length ≤ f := by
        rw [List.length_append] at h
        omega
      simp [ih f hle]

theorem utf8Decode_utf8Encode (s : String) : utf8Decode (utf8Encode s) = some s := by
  unfold utf8Decode utf8Encode
  rw [utf8DecodeAux_encode s.data _ le_rfl]
  rfl

/-! ## Lemmas about the payload format -/

theorem payload_data (n ct : List Nat) :
    (b64encode n ++ ":" ++ b64encode ct).data = b64chunks n ++ ':' :: b64chunks ct := by
  rw [String.data_append, String.data_append, List.append_assoc]
  rfl

theorem splitOnce_payload (n ct : List Nat) :
    splitOnce ':' (b64encode n ++ ":" ++ b64encode ct) = some (b64encode n, b64encode ct) := by
  unfold splitOnce
  rw [payload_data, splitOnceList_append b64chunks_no_colon]
  rfl

theorem b64decode_b64encode {bs : List Nat} (h : ∀ b ∈ bs, b < 256) :
    b64decode (b64encode bs) = some bs := b64decodeList_b64chunks h

theorem decode_encrypted_components_payload (n ct : List Nat)
    (hn : ∀ b ∈ n, b < 256) (hct : ∀ b ∈ ct, b < 256) (hlen : n.length = 12) :
    decode_encrypted_components (b64encode n ++ ":" ++ b64encode ct) = .ok (n, ct) := by
  unfold decode_encrypted_components
  rw [splitOnce_payload]
  simp only
  rw [b64decode_b64encode hn]
  simp only
  rw [if_neg (show ¬n.length ≠ 12 by omega)]
  rw [b64decode_b64encode hct]

theorem decrypt_password_payload (cipher : Cipher) (n ct : List Nat)
    (hn : ∀ b ∈ n, b < 256) (hct : ∀ b ∈ ct, b < 256) (hlen : n.length = 12) :
    decrypt_password cipher (b64encode n ++ ":" ++ b64encode ct)
      = match cipher.aeadDec n ct with
        | none => Except.error "Gagal mendekripsi password."
        | some pt =>
          match utf8Decode pt with
          | none => Except.error "Password terdekripsi bukan UTF-8 valid."
          | some s => Except.ok s := by
  unfold decrypt_password
  rw [decode_encrypted_components_payload n ct hn hct hlen]
  simp [hlen]

theorem string_mk_isEmpty_false {l : List Char} (h : l ≠ []) :
    (String.mk l).isEmpty = false := by
  rw [Bool.eq_false_iff]
  intro hh
  rw [String.isEmpty_iff, string_mk_eq_empty_iff] at hh
  exact h hh

theorem is_encrypted_format_payload {n ct : List Nat} (hn : n ≠ []) (hct : ct ≠ []) :
    is_encrypted_format (b64encode n ++ ":" ++ b64encode ct) = true := by
  unfold is_encrypted_format
  rw [splitOnce_payload, payload_data]
  have h1 : (b64chunks n ++ ':' :: b64chunks ct).contains ':' = true := by
    rw [contains_iff_mem]
    simp
  have h2 := string_mk_isEmpty_false (b64chunks_ne_nil hn)
  have h3 := string_mk_isEmpty_false (b64chunks_ne_nil hct)
  simp only [h1, Bool.true_and]
  rw [show b64encode n = String.mk (b64chunks n) from rfl,
    show b64encode ct = String.mk (b64chunks ct) from rfl] at *
  simp [h2, h3]

theorem splitOnce_eq_some_iff {sep : Char} {s a b : String} :
    splitOnce sep s = some (a, b) ↔ splitOnceList sep s.data = some (a.data, b.data) := by
  unfold splitOnce
  constructor
  · intro h
    rw [Option.map_eq_some'] at h
    obtain ⟨⟨a1, b1⟩, hsp, heq⟩ := h
    simp only [Prod.mk.injEq] at heq
    obtain ⟨ha, hb⟩ := heq
    subst ha
    subst hb
    exact hsp
  · intro h
    rw [h]
    rfl

theorem contains_of_splitOnce {sep : Char} {s a b : String}
    (h : splitOnce sep s = some (a, b)) : s.data.contains sep = true := by
  rw [splitOnce_eq_some_iff] at h
  obtain ⟨heq, _⟩ := splitOnceList_sound h
  rw [contains_iff_mem, heq]
  simp

theorem mem_of_getLast? {α : Type} {l : List α} {a : α} (h : l.getLast? = some a) : a ∈ l := by
  cases l with
  | nil => simp at h
  | cons x xs =>
    rw [List.getLast?_eq_getLast _ (by simp)] at h
    have hm := List.getLast_mem (l := x :: xs) (by simp)
    rw [Option.some.injEq] at h
    rw [← h]
    exact hm

theorem string_empty_append (s : String) : "" ++ s = s := by
  apply String.ext
  rw [String.data_append]
  rfl

theorem string_join_cons (s : String) (l : List String) :
    String.join (s :: l) = s ++ String.join l := by
  have key : ∀ (l : List String) (t : String),
      List.foldl (· ++ ·) t l = t ++ List.foldl (· ++ ·) "" l := by
    intro l
    induction l with
    | nil =>
      intro t
      simp only [List.foldl]
      apply String.ext
      rw [String.data_append]
      simp
    | cons x xs ih =>
      intro t
      simp only [List.foldl]
      rw [ih (t ++ x), ih ("" ++ x), ← String.append_assoc, string_empty_append]
  show List.foldl (· ++ ·) "" (s :: l) = s ++ List.foldl (· ++ ·) "" l
  simp only [List.foldl]
  rw [key l ("" ++ s), string_empty_append]

theorem entry_line_data (e : Entry) :
    (e.account ++ "," ++ e.password).data = e.account.data ++ ',' :: e.password.data := by
  rw [String.data_append, String.data_append, List.append_assoc]
  rfl

theorem splitOnce_entry_line (e : Entry) (h : ',' ∉ e.account.data) :
    splitOnce ',' (e.account ++ "," ++ e.password) = some (e.account, e.password) := by
  rw [splitOnce_eq_some_iff, entry_line_data]
  exact splitOnceList_append h _

theorem nat_xor_pow_ne (b : Nat) {j : Nat} : b ^^^ 2 ^ j ≠ b := by
  intro h
  have h2 : b ^^^ (b ^^^ 2 ^ j) = b ^^^ b := by rw [h]
  rw [← Nat.xor_assoc, Nat.xor_self, Nat.zero_xor] at h2
  have : 0 < 2 ^ j := Nat.pos_pow_of_pos j (by omega)
  omega

theorem flipBit_length (bs : List Nat) (i j : Nat) : (flipBit bs i j).length = bs.length :=
  List.length_set bs i _

theorem flipBit_lt_256 {bs : List Nat} (i : Nat) {j : Nat} (hb : ∀ b ∈ bs, b < 256)
    (hj : j < 8) : ∀ b ∈ flipBit bs i j, b < 256 := by
  intro b hbm
  rcases List.mem_or_eq_of_mem_set hbm with h | h
  · exact hb b h
  · subst h
    have h1 : bs.getD i 0 < 256 := by
      rw [List.getD_eq_getElem?_getD]
      rcases hg : bs[i]? with _ | x
      · simp
      · simpa using hb x (List.getElem?_mem hg)
    have h2 : 2 ^ j < 256 := by
      calc 2 ^ j ≤ 2 ^ 7 := Nat.pow_le_pow_right (by omega) (by omega)
        _ < 256 := by omega
    have := @Nat.xor_lt_two_pow (bs.getD i 0) (2 ^ j) 8 (by omega) (by omega)
    omega

theorem flipBit_ne {bs : List Nat} {i j : Nat} (hi : i < bs.length) : flipBit bs i j ≠ bs := by
  intro h
  unfold flipBit at h
  have hi2 : i < (bs.set i (bs.getD i 0 ^^^ 2 ^ j)).length := by
    rw [List.length_set]
    exact hi
  have h2 : (bs.set i (bs.getD i 0 ^^^ 2 ^ j))[i]? = some (bs.getD i 0 ^^^ 2 ^ j) :=
    List.getElem?_eq_some.mpr ⟨hi2, List.getElem_set_self hi2⟩
  rw [h] at h2
  have h5 : bs[i]? = some (bs[i]) := List.getElem?_eq_some.mpr ⟨hi, rfl⟩
  have h4 : bs[i]? = some (bs.getD i 0) := by
    rw [h5, List.getD_eq_getElem?_getD, h5]
    rfl
  rw [h4, Option.some.injEq] at h2
  exact nat_xor_pow_ne _ h2.symm

theorem decode_ok_inv {v : String} {n ct : List Nat}
    (h : decode_encrypted_components v = .ok (n, ct)) :
    ∃ a b, splitOnce ':' v = some (a, b) ∧ b64decode a = some n ∧ n.length = 12 ∧
      b64decode b = some ct := by
  unfold decode_encrypted_components at h
  split at h
  · exact absurd h (by simp)
  · rename_i a b heq
    split at h
    · exact absurd h (by simp)
    · rename_i nb heq2
      split at h
      · exact absurd h (by simp)
      · rename_i hlen
        split at h
        · exact absurd h (by simp)
        · rename_i cb heq3
          simp only [Except.ok.injEq, Prod.mk.injEq] at h
          obtain ⟨h1, h2⟩ := h
          subst h1
          subst h2
          exact ⟨a, b, heq, heq2, by omega, heq3⟩

/-! ## The claims -/

/-- C1: Round trip — for every cipher instance, any 12-byte nonce the
encryption draws and every valid UTF-8 string `p`, decrypting the
payload produced by encrypting `p` under the same cipher instance
returns `Ok p`.  The AEAD backend's round-trip contract at this nonce
and plaintext is a hypothesis, as the backend is an external crate. -/
theorem encrypt_decrypt_round_trip
    (cipher : Cipher) (nonce : List Nat) (p : String) (ct : List Nat)
    (hlen : nonce.length = 12) (hnb : ∀ b ∈ nonce, b < 256) (hctb : ∀ b ∈ ct, b < 256)
    (henc : cipher.aeadEnc nonce (utf8Encode p) = some ct)
    (hdec : cipher.aeadDec nonce ct = some (utf8Encode p)) :
    ∃ payload, encrypt_password cipher nonce p = .ok payload ∧
      decrypt_password cipher payload = .ok p := by
  refine ⟨b64encode nonce ++ ":" ++ b64encode ct, ?_, ?_⟩
  · unfold encrypt_password
    rw [henc]
  · rw [decrypt_password_payload cipher nonce ct hnb hctb hlen, hdec]
    simp [utf8Decode_utf8Encode]

/-- Witness for C1 at a concrete cipher, nonce and plaintext. -/
theorem encrypt_decrypt_round_trip_witness :
    ∃ payload,
      encrypt_password toyCipher [0, 1, 2, 3, 4, 5, 6, 7, 8, 9, 10, 11] "s3cr3t"
        = .ok payload ∧
      decrypt_password toyCipher payload = .ok "s3cr3t" :=
  encrypt_decrypt_round_trip toyCipher [0, 1, 2, 3, 4, 5, 6, 7, 8, 9, 10, 11] "s3cr3t"
    (utf8Encode "s3cr3t" ++ toyTag [0, 1, 2, 3, 4, 5, 6, 7, 8, 9, 10, 11] (utf8Encode "s3cr3t"))
    (by decide) (by decide) (by decide) (by decide) (by decide)

/-- C2: Tamper detection — for a well-formed payload whose decoded
nonce or ciphertext bytes have one bit flipped, `decrypt_password`
fails with the authentication error and returns no plaintext.  That the
AEAD backend rejects the tampered pair is the hypothesis `hauth` (the
cryptographic guarantee of the external crate); the theorem proves the
flipped payload really differs from the original and that
`decrypt_password` surfaces exactly `AuthFailed`. -/
theorem tamper_detection
    (cipher : Cipher) (n ct n2 ct2 : List Nat) (i j : Nat)
    (hn12 : n.length = 12) (hnb : ∀ b ∈ n, b < 256) (hctb : ∀ b ∈ ct, b < 256)
    (hflip : (n2 = flipBit n i j ∧ ct2 = ct ∧ i < n.length ∧ j < 8) ∨
             (n2 = n ∧ ct2 = flipBit ct i j ∧ i < ct.length ∧ j < 8))
    (hauth : cipher.aeadDec n2 ct2 = none) :
    decrypt_password cipher (b64encode n2 ++ ":" ++ b64encode ct2)
      = .error "Gagal mendekripsi password." ∧ (n2, ct2) ≠ (n, ct) := by
  have hn2len : n2.length = 12 := by
    rcases hflip with ⟨h1, _, _, _⟩ | ⟨h1, _, _, _⟩
    · rw [h1, flipBit_length]
      exact hn12
    · rw [h1]
      exact hn12
  have hn2b : ∀ b ∈ n2, b < 256 := by
    rcases hflip with ⟨h1, _, _, hj⟩ | ⟨h1, _, _, _⟩
    · rw [h1]
      exact flipBit_lt_256 i hnb hj
    · rw [h1]
      exact hnb
  have hct2b : ∀ b ∈ ct2, b < 256 := by
    rcases hflip with ⟨_, h2, _, _⟩ | ⟨_, h2, _, hj⟩
    · rw [h2]
      exact hctb
    · rw [h2]
      exact flipBit_lt_256 i hctb hj
  constructor
  · rw [decrypt_password_payload cipher n2 ct2 hn2b hct2b hn2len, hauth]
  · intro hpair
    rw [Prod.mk.injEq] at hpair
    obtain ⟨he1, he2⟩ := hpair
    rcases hflip with ⟨h1, _, hi, _⟩ | ⟨_, h2, hi, _⟩
    · rw [h1] at he1
      exact flipBit_ne hi he1
    · rw [h2] at he2
      exact flipBit_ne hi he2

/-- Witness for C2: a concrete payload with one ciphertext bit flipped
is rejected with the authentication error. -/
theorem tamper_detection_witness :
    decrypt_password toyCipher
        (b64encode [0, 1, 2, 3, 4, 5, 6, 7, 8, 9, 10, 11] ++ ":" ++
          b64encode (flipBit
            (utf8Encode "s3cr3t" ++
              toyTag [0, 1, 2, 3, 4, 5, 6, 7, 8, 9, 10, 11] (utf8Encode "s3cr3t")) 0 0))
      = .error "Gagal mendekripsi password." ∧
    (([0, 1, 2, 3, 4, 5, 6, 7, 8, 9, 10, 11] : List Nat),
      flipBit (utf8Encode "s3cr3t" ++
        toyTag [0, 1, 2, 3, 4, 5, 6, 7, 8, 9, 10, 11] (utf8Encode "s3cr3t")) 0 0)
      ≠ ([0, 1, 2, 3, 4, 5, 6, 7, 8, 9, 10, 11],
          utf8Encode "s3cr3t" ++
            toyTag [0, 1, 2, 3, 4, 5, 6, 7, 8, 9, 10, 11] (utf8Encode "s3cr3t")) :=
  tamper_detection toyCipher [0, 1, 2, 3, 4, 5, 6, 7, 8, 9, 10, 11]
    (utf8Encode "s3cr3t" ++ toyTag [0, 1, 2, 3, 4, 5, 6, 7, 8, 9, 10, 11] (utf8Encode "s3cr3t"))
    [0, 1, 2, 3, 4, 5, 6, 7, 8, 9, 10, 11]
    (flipBit (utf8Encode "s3cr3t" ++
      toyTag [0, 1, 2, 3, 4, 5, 6, 7, 8, 9, 10, 11] (utf8Encode "s3cr3t")) 0 0)
    0 0 (by decide) (by decide) (by decide)
    (Or.inr ⟨rfl, rfl, by decide, by decide⟩) (by decide)

/-- C4: Classification rule — `is_encrypted_format` reports encrypted
exactly when the string splits at its first `:` into two non-empty
parts; and the three concrete examples of the specification. -/
theorem classification_rule :
    (∀ raw : String, is_encrypted_format raw = true ↔
      ∃ a b, splitOnce ':' raw = some (a, b) ∧ a ≠ "" ∧ b ≠ "") ∧
    is_encrypted_format "YWJj:ZGVm" = true ∧
    is_encrypted_format "hello" = false ∧
    is_encrypted_format "abc:" = false := by
  refine ⟨?_, by decide, by decide, by decide⟩
  intro raw
  unfold is_encrypted_format
  rcases hsp : splitOnce ':' raw with _ | ⟨a, b⟩
  · simp
  · rw [contains_of_splitOnce hsp]
    simp only
    simp only [Bool.true_and]
    constructor
    · intro h
      simp only [Bool.and_eq_true, Bool.not_eq_true'] at h
      refine ⟨a, b, rfl, fun he => ?_, fun he => ?_⟩
      · rw [he] at h
        exact absurd h.1 (by decide)
      · rw [he] at h
        exact absurd h.2 (by decide)
    · rintro ⟨a1, b1, hab, ha, hb⟩
      rw [Option.some.injEq, Prod.mk.injEq] at hab
      obtain ⟨ha1, hb1⟩ := hab
      subst ha1
      subst hb1
      simp only [Bool.and_eq_true, Bool.not_eq_true']
      constructor
      · rw [Bool.eq_false_iff]
        intro hh
        exact ha ((String.isEmpty_iff _).mp hh)
      · rw [Bool.eq_false_iff]
        intro hh
        exact hb ((String.isEmpty_iff _).mp hh)

/-- C5: Decode failure conditions — `decode_encrypted_components`
succeeds exactly when the payload splits at its first `:`, both halves
base64-decode, and the decoded nonce is exactly 12 bytes; in that case
it returns the decoded pair.  Every other input is an error. -/
theorem decode_failure_conditions (v : String) :
    ((decode_encrypted_components v).isOk = true ↔
      ∃ a b n ct, splitOnce ':' v = some (a, b) ∧ b64decode a = some n ∧ n.length = 12 ∧
        b64decode b = some ct) ∧
    ∀ a b n ct, splitOnce ':' v = some (a, b) → b64decode a = some n → n.length = 12 →
      b64decode b = some ct → decode_encrypted_components v = .ok (n, ct) := by
  have hfwd : ∀ a b n ct, splitOnce ':' v = some (a, b) → b64decode a = some n →
      n.length = 12 → b64decode b = some ct →
      decode_encrypted_components v = .ok (n, ct) := by
    intro a b n ct hsp hdn hlen hdc
    unfold decode_encrypted_components
    rw [hsp]
    simp only
    rw [hdn]
    simp only
    rw [if_neg (show ¬n.length ≠ 12 by omega), hdc]
  refine ⟨⟨?_, ?_⟩, hfwd⟩
  · intro h
    rcases hd : decode_encrypted_components v with e | ⟨n, ct⟩
    · rw [hd] at h
      exact absurd h (by simp [Except.isOk, Except.toBool])
    · obtain ⟨a, b, h1, h2, h3, h4⟩ := decode_ok_inv hd
      exact ⟨a, b, n, ct, h1, h2, h3, h4⟩
  · rintro ⟨a, b, n, ct, h1, h2, h3, h4⟩
    rw [hfwd a b n ct h1 h2 h3 h4]
    rfl

/-- C6: Key derivation — with no passphrase source the result is the
missing-configuration error; a passphrase that is empty after trimming
gives the empty-configuration error; otherwise the cipher is built
deterministically from the SHA-256 digest of the passphrase's UTF-8
bytes (the digest function, an external crate, always returns 32
bytes — hypothesis `hdigest`). -/
theorem key_derivation_spec (sha256 : List Nat → List Nat) (mk : List Nat → Cipher) (p : String)
    (hdigest : ∀ bs, (sha256 bs).length = 32) :
    initialize_cipher sha256 mk none
        = .error "Environment variable PASSWORD_MANAGER_KEY belum diset." ∧
    (rustTrim p = "" →
      initialize_cipher sha256 mk (some p)
        = .error "PASSWORD_MANAGER_KEY tidak boleh kosong.") ∧
    (rustTrim p ≠ "" →
      initialize_cipher sha256 mk (some p) = .ok (mk (sha256 (utf8Encode p)))) := by
  refine ⟨rfl, ?_, ?_⟩
  · intro h
    unfold initialize_cipher
    simp only
    rw [if_pos ((String.isEmpty_iff _).mpr h)]
  · intro h
    unfold initialize_cipher
    simp only
    rw [if_neg (fun hh => h ((String.isEmpty_iff _).mp hh))]
    unfold new_from_slice
    rw [if_pos (hdigest _)]

/-- Witness for C6 at a concrete digest function and passphrase. -/
theorem key_derivation_spec_witness :
    initialize_cipher (fun _ => List.replicate 32 0) (fun _ => toyCipher) (some "correct-horse")
      = .ok toyCipher :=
  (key_derivation_spec (fun _ => List.replicate 32 0) (fun _ => toyCipher) "correct-horse"
    (fun _ => by simp)).2.2 (by decide)

/-- C7: `App::add_entry` trims both inputs, fails exactly when either
is empty after trimming or the encryption itself fails, leaves the
state unchanged on every failure, and on success appends exactly one
entry built from the trimmed account and the encrypted trimmed
password (clearing the two input buffers). -/
theorem add_entry_validation (app : App) (nonce : List Nat) :
    ((rustTrim app.account_input = "" ∨ rustTrim app.password_input = "") →
      App.add_entry nonce app
        = (.error "Account atau password tidak boleh kosong.", app)) ∧
    (∀ e, rustTrim app.account_input ≠ "" → rustTrim app.password_input ≠ "" →
      encrypt_password app.cipher nonce (rustTrim app.password_input) = .error e →
      App.add_entry nonce app = (.error e, app)) ∧
    (∀ enc, rustTrim app.account_input ≠ "" → rustTrim app.password_input ≠ "" →
      encrypt_password app.cipher nonce (rustTrim app.password_input) = .ok enc →
      App.add_entry nonce app = (.ok (), { app with
        entries := app.entries ++
          [{ account := rustTrim app.account_input, password := enc }],
        account_input := "", password_input := "" })) := by
  refine ⟨?_, ?_, ?_⟩
  · intro h
    have hb : ((rustTrim app.account_input).isEmpty
        || (rustTrim app.password_input).isEmpty) = true := by
      rcases h with h | h
      · rw [(String.isEmpty_iff _).mpr h]
        rfl
      · rw [(String.isEmpty_iff _).mpr h, Bool.or_true]
    simp only [App.add_entry, hb, if_true]
  · intro e hna hnp henc
    have h1 : (rustTrim app.account_input).isEmpty = false := by
      rw [Bool.eq_false_iff]
      intro hh
      exact hna ((String.isEmpty_iff _).mp hh)
    have h2 : (rustTrim app.password_input).isEmpty = false := by
      rw [Bool.eq_false_iff]
      intro hh
      exact hnp ((String.isEmpty_iff _).mp hh)
    simp only [App.add_entry, h1, h2, Bool.or_false, Bool.false_eq_true, if_false, henc]
  · intro enc hna hnp henc
    have h1 : (rustTrim app.account_input).isEmpty = false := by
      rw [Bool.eq_false_iff]
      intro hh
      exact hna ((String.isEmpty_iff _).mp hh)
    have h2 : (rustTrim app.password_input).isEmpty = false := by
      rw [Bool.eq_false_iff]
      intro hh
      exact hnp ((String.isEmpty_iff _).mp hh)
    simp only [App.add_entry, h1, h2, Bool.or_false, Bool.false_eq_true, if_false, henc]

/-- C9: Classification closure of encryption — every payload
`encrypt_password` returns is classified as already encrypted by
`is_encrypted_format` (the separator `:` is not a base64 character and
both encoded halves are non-empty: the nonce is 12 bytes and an
AES-GCM ciphertext carries a 16-byte tag, hypotheses `hn`/`hct`), so a
later `load_entries` never re-encrypts it. -/
theorem encrypt_payload_classified
    (cipher : Cipher) (nonce : List Nat) (p : String) (ct : List Nat)
    (hn : nonce ≠ []) (hct : ct ≠ [])
    (henc : cipher.aeadEnc nonce (utf8Encode p) = some ct) :
    ∃ payload, encrypt_password cipher nonce p = .ok payload ∧
      is_encrypted_format payload = true ∧
      b64encode nonce ≠ "" ∧ b64encode ct ≠ "" ∧ ':' ∉ b64Alphabet := by
  refine ⟨b64encode nonce ++ ":" ++ b64encode ct, ?_,
    is_encrypted_format_payload hn hct, ?_, ?_, by decide⟩
  · unfold encrypt_password
    rw [henc]
  · intro hh
    exact b64chunks_ne_nil hn (string_mk_eq_empty_iff.mp hh)
  · intro hh
    exact b64chunks_ne_nil hct (string_mk_eq_empty_iff.mp hh)

/-- Witness for C9 at a concrete cipher, nonce and plaintext. -/
theorem encrypt_payload_classified_witness :
    ∃ payload,
      encrypt_password toyCipher [0, 1, 2, 3, 4, 5, 6, 7, 8, 9, 10, 11] "s3cr3t"
        = .ok payload ∧
      is_encrypted_format payload = true ∧
      b64encode [0, 1, 2, 3, 4, 5, 6, 7, 8, 9, 10, 11] ≠ "" ∧
      b64encode (utf8Encode "s3cr3t" ++
        toyTag [0, 1, 2, 3, 4, 5, 6, 7, 8, 9, 10, 11] (utf8Encode "s3cr3t")) ≠ "" ∧
      ':' ∉ b64Alphabet :=
  encrypt_payload_classified toyCipher [0, 1, 2, 3, 4, 5, 6, 7, 8, 9, 10, 11] "s3cr3t"
    (utf8Encode "s3cr3t" ++ toyTag [0, 1, 2, 3, 4, 5, 6, 7, 8, 9, 10, 11] (utf8Encode "s3cr3t"))
    (by decide) (by decide) (by decide)

/-- C10: Unreachable nonce-conversion failure — whenever
`decode_encrypted_components` succeeds, the returned nonce vector has
length exactly 12, so in `decrypt_password` the error branch of the
12-byte array conversion is never taken and decryption proceeds
directly to the AEAD call; `decrypt_password` is a total function. -/
theorem nonce_conversion_unreachable
    (cipher : Cipher) (v : String) (n ct : List Nat)
    (h : decode_encrypted_components v = .ok (n, ct)) :
    n.length = 12 ∧
    decrypt_password cipher v
      = match cipher.aeadDec n ct with
        | none => Except.error "Gagal mendekripsi password."
        | some pt =>
          match utf8Decode pt with
          | none => Except.error "Password terdekripsi bukan UTF-8 valid."
          | some s => Except.ok s := by
  obtain ⟨a, b, hsp, hdn, hlen, hdc⟩ := decode_ok_inv h
  refine ⟨hlen, ?_⟩
  unfold decrypt_password
  rw [h]
  simp [hlen]

/-- Witness for C10 at a concrete payload. -/
theorem nonce_conversion_unreachable_witness :
    (12 : Nat) = 12 ∧
    decrypt_password toyCipher
        (b64encode [0, 1, 2, 3, 4, 5, 6, 7, 8, 9, 10, 11] ++ ":" ++ b64encode [1, 2, 3])
      = match toyCipher.aeadDec [0, 1, 2, 3, 4, 5, 6, 7, 8, 9, 10, 11] [1, 2, 3] with
        | none => Except.error "Gagal mendekripsi password."
        | some pt =>
          match utf8Decode pt with
          | none => Except.error "Password terdekripsi bukan UTF-8 valid."
          | some s => Except.ok s := by
  have h : decode_encrypted_components
      (b64encode [0, 1, 2, 3, 4, 5, 6, 7, 8, 9, 10, 11] ++ ":" ++ b64encode [1, 2, 3])
      = .ok ([0, 1, 2, 3, 4, 5, 6, 7, 8, 9, 10, 11], [1, 2, 3]) := by rfl
  have := nonce_conversion_unreachable toyCipher
    (b64encode [0, 1, 2, 3, 4, 5, 6, 7, 8, 9, 10, 11] ++ ":" ++ b64encode [1, 2, 3])
    [0, 1, 2, 3, 4, 5, 6, 7, 8, 9, 10, 11] [1, 2, 3] h
  exact ⟨this.1 ▸ rfl, this.2⟩

/-! ## Lemmas about saving and line splitting -/

theorem save_entries_join (old : String) (entries : List Entry) :
    save_entries old entries
      = String.join (entries.map (fun e => e.account ++ "," ++ e.password ++ "\n")) := by
  induction entries with
  | nil => rfl
  | cons e es ih => simp only [save_entries, List.map_cons, string_join_cons, ih]

theorem save_entries_indep (old old2 : String) (entries : List Entry) :
    save_entries old entries = save_entries old2 entries := by
  induction entries with
  | nil => rfl
  | cons e es ih => simp only [save_entries, ih]

theorem save_entries_data (old : String) (entries : List Entry) :
    (save_entries old entries).data
      = (entries.map (fun e => e.account.data ++ ',' :: e.password.data)).flatMap
          (fun l => l ++ ['\n']) := by
  induction entries with
  | nil => rfl
  | cons e es ih =>
    simp only [save_entries, List.map_cons, List.flatMap_cons, String.data_append, ih,
      show ("," : String).data = [','] from rfl, show ("\n" : String).data = ['\n'] from rfl]
    simp [List.append_assoc]

theorem stripCR_eq_self {l : List Char} (h : l.getLast? ≠ some '\r') : stripCR l = l :=
  if_neg h

theorem splitLinesAux_line (l : List Char) (hl : '\n' ∉ l) : ∀ (acc rest : List Char),
    splitLinesAux acc (l ++ '\n' :: rest)
      = stripCR (acc.reverse ++ l) :: splitLinesAux [] rest := by
  induction l with
  | nil =>
    intro acc rest
    simp [splitLinesAux]
  | cons c l ih =>
    intro acc rest
    have hc : ¬(c = '\n') := fun hh => hl (hh ▸ List.mem_cons_self _ _)
    have hl2 : '\n' ∉ l := fun hh => hl (List.mem_cons_of_mem _ hh)
    simp only [List.cons_append, splitLinesAux, if_neg hc]
    rw [show splitLinesAux (c :: acc) (l.append ('\n' :: rest))
        = stripCR ((c :: acc).reverse ++ l) :: splitLinesAux [] rest from ih hl2 (c :: acc) rest]
    simp [List.reverse_cons, List.append_assoc]

theorem splitLines_flatMap (lines : List (List Char))
    (h : ∀ l ∈ lines, ('\n' ∉ l) ∧ l.getLast? ≠ some '\r') :
    splitLinesList (lines.flatMap (fun l => l ++ ['\n'])) = lines := by
  induction lines with
  | nil => rfl
  | cons l ls ih =>
    obtain ⟨hl, hcr⟩ := h l (by simp)
    rw [List.flatMap_cons, List.append_assoc, List.singleton_append]
    unfold splitLinesList
    rw [splitLinesAux_line l hl [] _]
    rw [List.reverse_nil, List.nil_append, stripCR_eq_self hcr]
    rw [show splitLinesAux [] (ls.flatMap (fun l => l ++ ['\n']))
        = splitLinesList (ls.flatMap (fun l => l ++ ['\n'])) from rfl]
    rw [ih (fun l2 hl2 => h l2 (by simp [hl2]))]

theorem linesOf_save_entries (old : String) (entries : List Entry)
    (h : ∀ e ∈ entries, ('\n' ∉ e.account.data) ∧ ('\n' ∉ e.password.data) ∧
      e.password.data ≠ [] ∧ e.password.data.getLast? ≠ some '\r') :
    linesOf (save_entries old entries)
      = entries.map (fun e => e.account ++ "," ++ e.password) := by
  unfold linesOf
  rw [save_entries_data, splitLines_flatMap]
  · rw [List.map_map]
    apply List.map_congr_left
    intro e _
    apply String.ext
    rw [entry_line_data]
    rfl
  · intro l hlm
    rw [List.mem_map] at hlm
    obtain ⟨e, hem, hle⟩ := hlm
    obtain ⟨h1, h2, h3, h4⟩ := h e hem
    subst hle
    obtain ⟨x, hx⟩ : ∃ x, e.password.data.getLast? = some x := by
      rcases hg : e.password.data.getLast? with _ | x
      · rw [List.getLast?_eq_none_iff] at hg
        exact absurd hg h3
      · exact ⟨x, rfl⟩
    constructor
    · intro hmem
      rw [List.mem_append] at hmem
      rcases hmem with hm | hm
      · exact h1 hm
      · rw [List.mem_cons] at hm
        rcases hm with hm | hm
        · exact absurd hm (by decide)
        · exact h2 hm
    · rw [List.getLast?_append]
      have h5 : (',' :: e.password.data).getLast? = some x := by
        rw [show (',' :: e.password.data) = [','] ++ e.password.data from rfl,
          List.getLast?_append, hx, Option.or_some]
      rw [h5, Option.or_some]
      rw [hx] at h4
      exact h4

/-- C8: Save postcondition — `save_entries` produces exactly one
`account,password` line per entry, in list order, each terminated by a
newline; the result replaces the file wholly (it does not depend on
the previous content); and splitting the written content back into
lines recovers exactly the `account,password` records. -/
theorem save_postcondition (old old2 : String) (entries : List Entry) :
    save_entries old entries
      = String.join (entries.map (fun e => e.account ++ "," ++ e.password ++ "\n")) ∧
    save_entries old entries = save_entries old2 entries ∧
    ((∀ e ∈ entries, ('\n' ∉ e.account.data) ∧ ('\n' ∉ e.password.data) ∧
        e.password.data ≠ [] ∧ e.password.data.getLast? ≠ some '\r') →
      linesOf (save_entries old entries)
        = entries.map (fun e => e.account ++ "," ++ e.password)) :=
  ⟨save_entries_join old entries, save_entries_indep old old2 entries,
    linesOf_save_entries old entries⟩

/-! ## Lemmas about loading and migration -/

theorem toyCipher_contract (nonce pt : List Nat) (hpt : ∀ b ∈ pt, b < 256) :
    ∃ ct, toyCipher.aeadEnc nonce pt = some ct ∧ ct ≠ [] ∧ (∀ b ∈ ct, b < 256) ∧
      toyCipher.aeadDec nonce ct = some pt := by
  refine ⟨pt ++ toyTag nonce pt, rfl, by simp [toyTag], ?_, ?_⟩
  · intro b hb
    rw [List.mem_append] at hb
    rcases hb with hb | hb
    · exact hpt b hb
    · unfold toyTag at hb
      rw [List.mem_cons] at hb
      rcases hb with hb | hb
      · subst hb
        exact Nat.mod_lt _ (by omega)
      · rw [List.mem_replicate] at hb
        omega
  · have hlen : (pt ++ toyTag nonce pt).length = pt.length + 16 := by
      rw [List.length_append]
      simp [toyTag]
    show (if 16 ≤ (pt ++ toyTag nonce pt).length then
        if (pt ++ toyTag nonce pt).drop ((pt ++ toyTag nonce pt).length - 16)
            = toyTag nonce ((pt ++ toyTag nonce pt).take ((pt ++ toyTag nonce pt).length - 16))
          then some ((pt ++ toyTag nonce pt).take ((pt ++ toyTag nonce pt).length - 16))
          else none
      else none) = some pt
    rw [hlen, if_pos (by omega : (16 : Nat) ≤ pt.length + 16)]
    rw [show pt.length + 16 - 16 = pt.length by omega]
    rw [show (pt ++ toyTag nonce pt).take pt.length = pt from List.take_left pt _,
      show (pt ++ toyTag nonce pt).drop pt.length = toyTag nonce pt from List.drop_left pt _]
    rw [if_pos rfl]

theorem processLines_all_plain
    (cipher : Cipher) (nonceAt : Nat → List Nat)
    (haead : ∀ j pt, (∀ b ∈ pt, b < 256) →
      ∃ ct, cipher.aeadEnc (nonceAt j) pt = some ct ∧ ct ≠ [] ∧ (∀ b ∈ ct, b < 256)) :
    ∀ (ls : List String) (k : Nat) (upd : Bool),
    (∀ l ∈ ls, ∃ a r, splitOnce ',' l = some (a, r) ∧ is_encrypted_format r = false) →
    ∃ entries,
      processLines cipher nonceAt ls k upd = .ok (entries, if ls.isEmpty then upd else true) ∧
      entries.length = ls.length ∧
      ∀ i (hi : i < ls.length) (hi2 : i < entries.length), ∃ a r ct,
        splitOnce ',' (ls.get ⟨i, hi⟩) = some (a, r) ∧
        cipher.aeadEnc (nonceAt (k + i)) (utf8Encode r) = some ct ∧ ct ≠ [] ∧
        (∀ b ∈ ct, b < 256) ∧
        entries.get ⟨i, hi2⟩
          = { account := a,
              password := b64encode (nonceAt (k + i)) ++ ":" ++ b64encode ct } := by
  intro ls
  induction ls with
  | nil =>
    intro k upd hp
    refine ⟨[], rfl, rfl, ?_⟩
    intro i hi
    simp at hi
  | cons l ls ih =>
    intro k upd hp
    obtain ⟨a, r, hsp, hplain⟩ := hp l (by simp)
    obtain ⟨ct, henc, hctne, hctb⟩ := haead k (utf8Encode r) (utf8Encode_lt_256 r)
    obtain ⟨entries, hproc, hlen, hfacts⟩ :=
      ih (k + 1) true (fun l2 hl2 => hp l2 (by simp [hl2]))
    have hencp : encrypt_password cipher (nonceAt k) r
        = .ok (b64encode (nonceAt k) ++ ":" ++ b64encode ct) := by
      unfold encrypt_password
      rw [henc]
    refine ⟨{ account := a,
              password := b64encode (nonceAt k) ++ ":" ++ b64encode ct } :: entries,
      ?_, by simp [hlen], ?_⟩
    · simp only [processLines]
      rw [hsp]
      simp only [hplain, Bool.false_eq_true, if_false]
      rw [hencp]
      simp only
      rw [hproc]
      simp [Except.map, ite_self]
    · intro i hi hi2
      cases i with
      | zero =>
        refine ⟨a, r, ct, ?_, ?_, hctne, hctb, ?_⟩
        · simpa using hsp
        · simpa using henc
        · simp
      | succ i2 =>
        have hi3 : i2 < ls.length := by simpa using hi
        have hi4 : i2 < entries.length := by simpa using hi2
        obtain ⟨a2, r2, ct2, f1, f2, f3, f4, f5⟩ := hfacts i2 hi3 hi4
        refine ⟨a2, r2, ct2, ?_, ?_, f3, f4, ?_⟩
        · rw [List.get_cons_succ]
          exact f1
        · rw [show k + (i2 + 1) = k + 1 + i2 by omega]
          exact f2
        · rw [List.get_cons_succ, show k + (i2 + 1) = k + 1 + i2 by omega]
          exact f5

theorem processLines_all_encrypted
    (cipher : Cipher) (nonceAt : Nat → List Nat) :
    ∀ (entries : List Entry) (k : Nat) (upd : Bool),
    (∀ e ∈ entries, (',' ∉ e.account.data) ∧ is_encrypted_format e.password = true) →
    processLines cipher nonceAt (entries.map (fun e => e.account ++ "," ++ e.password)) k upd
      = .ok (entries, upd) := by
  intro entries
  induction entries with
  | nil =>
    intro k upd _
    rfl
  | cons e es ih =>
    intro k upd h
    obtain ⟨hacct, hency⟩ := h e (by simp)
    simp only [List.map_cons, processLines]
    rw [splitOnce_entry_line e hacct]
    simp only [hency, if_true]
    rw [ih k upd (fun e2 he2 => h e2 (by simp [he2]))]
    rfl

/-- C3: Migration idempotence / convergence — loading a non-empty file
whose every line parses into an account and a Plain-classified password
yields `migrated = true`; saving the returned entries and loading the
saved file again returns the same entries with `migrated = false`; and
decrypting each stored password recovers exactly the plaintext of its
original line.  The AEAD contract of the backend on the drawn nonces
is the hypothesis `haead`. -/
theorem migration_idempotent_convergence
    (cipher : Cipher) (nonceAt nonceAt2 : Nat → List Nat) (ls : List String) (old : String)
    (hne : ls ≠ [])
    (hparse : ∀ l ∈ ls, ∃ a r, splitOnce ',' l = some (a, r) ∧ is_encrypted_format r = false)
    (hlinechars : ∀ l ∈ ls, '\n' ∉ l.data)
    (hnonce : ∀ j, (nonceAt j).length = 12 ∧ ∀ b ∈ nonceAt j, b < 256)
    (haead : ∀ j pt, (∀ b ∈ pt, b < 256) →
      ∃ ct, cipher.aeadEnc (nonceAt j) pt = some ct ∧ ct ≠ [] ∧ (∀ b ∈ ct, b < 256) ∧
        cipher.aeadDec (nonceAt j) ct = some pt) :
    ∃ entries,
      load_entries (some ls) cipher nonceAt = .ok (entries, true) ∧
      load_entries (some (linesOf (save_entries old entries))) cipher nonceAt2
        = .ok (entries, false) ∧
      entries.length = ls.length ∧
      ∀ i (hi : i < ls.length) (hi2 : i < entries.length), ∃ a r,
        splitOnce ',' (ls.get ⟨i, hi⟩) = some (a, r) ∧
        (entries.get ⟨i, hi2⟩).account = a ∧
        decrypt_password cipher ((entries.get ⟨i, hi2⟩).password) = .ok r := by
  obtain ⟨entries, hload, hlen, hfacts⟩ :=
    processLines_all_plain cipher nonceAt
      (fun j pt hb =>
        (haead j pt hb).imp (fun ct hc => ⟨hc.1, hc.2.1, hc.2.2.1⟩)) ls 0 false hparse
  have hflag : (if ls.isEmpty then false else true) = true := by
    cases ls with
    | nil => exact absurd rfl hne
    | cons x xs => rfl
  have hgood : ∀ e ∈ entries,
      (',' ∉ e.account.data) ∧ is_encrypted_format e.password = true ∧
      ('\n' ∉ e.account.data) ∧ ('\n' ∉ e.password.data) ∧
      e.password.data ≠ [] ∧ e.password.data.getLast? ≠ some '\r' := by
    intro e he
    obtain ⟨⟨i, hi2⟩, hge⟩ := List.mem_iff_get.mp he
    have hi : i < ls.length := by omega
    obtain ⟨a, r, ct, f1, f2, f3, f4, f5⟩ := hfacts i hi hi2
    rw [f5] at hge
    obtain ⟨hlineq, hnocomma⟩ := splitOnceList_sound (splitOnce_eq_some_iff.mp f1)
    have hnn : '\n' ∉ (ls.get ⟨i, hi⟩).data := hlinechars _ (List.get_mem ls i hi)
    have hnlacc : '\n' ∉ a.data := by
      intro hm
      exact hnn (by rw [hlineq]; exact List.mem_append.mpr (Or.inl hm))
    have hnonceNe : nonceAt (0 + i) ≠ [] := by
      intro hh
      have := (hnonce (0 + i)).1
      rw [hh] at this
      simp at this
    have hpd := payload_data (nonceAt (0 + i)) ct
    rw [← hge]
    refine ⟨hnocomma, is_encrypted_format_payload hnonceNe f3, hnlacc, ?_, ?_, ?_⟩
    · intro hm
      rw [hpd, List.mem_append, List.mem_cons] at hm
      rcases hm with hm | hm | hm
      · exact b64chunks_no_newline hm
      · exact absurd hm (by decide)
      · exact b64chunks_no_newline hm
    · rw [hpd]
      simp
    · rw [hpd]
      obtain ⟨x, hx⟩ : ∃ x, (b64chunks ct).getLast? = some x := by
        rcases hg : (b64chunks ct).getLast? with _ | x
        · rw [List.getLast?_eq_none_iff] at hg
          exact absurd hg (b64chunks_ne_nil f3)
        · exact ⟨x, rfl⟩
      have h5 : (':' :: b64chunks ct).getLast? = some x := by
        rw [show (':' :: b64chunks ct) = [':'] ++ b64chunks ct from rfl,
          List.getLast?_append, hx, Option.or_some]
      rw [List.getLast?_append, h5, Option.or_some]
      intro hh
      rw [Option.some.injEq] at hh
      exact b64chunks_no_cr (hh ▸ mem_of_getLast? hx)
  refine ⟨entries, ?_, ?_, hlen, ?_⟩
  · show load_entries (some ls) cipher nonceAt = .ok (entries, true)
    unfold load_entries
    simp only
    rw [hload, hflag]
  · unfold load_entries
    simp only
    rw [linesOf_save_entries old entries
      (fun e he => ⟨(hgood e he).2.2.1, (hgood e he).2.2.2.1,
        (hgood e he).2.2.2.2.1, (hgood e he).2.2.2.2.2⟩)]
    rw [processLines_all_encrypted cipher nonceAt2 entries 0 false
      (fun e he => ⟨(hgood e he).1, (hgood e he).2.1⟩)]
  · intro i hi hi2
    obtain ⟨a, r, ct, f1, f2, f3, f4, f5⟩ := hfacts i hi hi2
    obtain ⟨hn12, hnb⟩ := hnonce (0 + i)
    refine ⟨a, r, f1, by rw [f5], ?_⟩
    rw [f5]
    simp only
    rw [decrypt_password_payload cipher _ ct hnb f4 hn12]
    obtain ⟨ct2, g1, g2, g3, g4⟩ := haead (0 + i) (utf8Encode r) (utf8Encode_lt_256 r)
    rw [g1, Option.some.injEq] at f2
    subst f2
    rw [g4]
    simp [utf8Decode_utf8Encode]

/-- Witness for C3 at a concrete cipher, nonce stream and single-line
legacy file. -/
theorem migration_idempotent_convergence_witness :
    ∃ entries,
      load_entries (some ["old,plainpass"]) toyCipher
          (fun _ => [0, 1, 2, 3, 4, 5, 6, 7, 8, 9, 10, 11]) = .ok (entries, true) ∧
      load_entries (some (linesOf (save_entries "" entries))) toyCipher
          (fun _ => [0, 1, 2, 3, 4, 5, 6, 7, 8, 9, 10, 11]) = .ok (entries, false) ∧
      entries.length = (["old,plainpass"] : List String).length ∧
      ∀ i (hi : i < (["old,plainpass"] : List String).length)
        (hi2 : i < entries.length), ∃ a r,
        splitOnce ',' ((["old,plainpass"] : List String).get ⟨i, hi⟩) = some (a, r) ∧
        (entries.get ⟨i, hi2⟩).account = a ∧
        decrypt_password toyCipher ((entries.get ⟨i, hi2⟩).password) = .ok r :=
  migration_idempotent_convergence toyCipher
    (fun _ => [0, 1, 2, 3, 4, 5, 6, 7, 8, 9, 10, 11])
    (fun _ => [0, 1, 2, 3, 4, 5, 6, 7, 8, 9, 10, 11]) ["old,plainpass"] ""
    (by decide)
    (fun l hl => by
      rw [List.mem_singleton] at hl
      subst hl
      exact ⟨"old", "plainpass", by decide, by decide⟩)
    (by decide)
    (fun j =>
      ⟨by show ([0, 1, 2, 3, 4, 5, 6, 7, 8, 9, 10, 11] : List Nat).length = 12; decide,
       by show ∀ b ∈ ([0, 1, 2, 3, 4, 5, 6, 7, 8, 9, 10, 11] : List Nat), b < 256; decide⟩)
    (fun j pt hb => toyCipher_contract _ pt hb)

end PwVault
